import Mathlib

/-!
Verification development for the TropiC+ supply-chain dashboard (`app.py`).

The relevant parts of the program are embedded shallowly:

* column-name normalization (`load_excel.norm`) works on `List Char`;
  `pandas.Series.str.replace(..., regex=False)` is modelled by `replaceList`,
  a left-to-right, non-overlapping, single-pass textual replacement, exactly
  the semantics of Python `str.replace`;
* missing numeric cells (pandas `NaN`) are modelled as `none : Option ℚ`, and
  floating-point numbers as rationals; round keys are taken to be present
  (the workbook schema has `round` as a required integer column);
* `groupby("round").agg(...)` is modelled by grouping rows on the sorted
  distinct round keys (pandas `groupby` sorts keys) with `aggMean` (skipna
  mean) and `aggSum` (skipna sum with `min_count=0`, so an all-missing group
  sums to `0`);
* `merge(..., how="left")` is modelled by `leftMerge`, which produces one
  output row per matching left/right pair and a `none` payload for unmatched
  left rows;
* `pivot_table` with its default `dropna=True` is modelled by `pivotAgg`:
  group cells whose aggregate is missing are dropped before the reshape, so
  all-missing rows and columns do not appear (pandas drops all-`NaN` groups
  of the aggregated frame and all-`NaN` columns of the reshaped frame);
  the ordering pandas gives the remaining keys is not modelled, since only
  the key sets and the cell values are at stake;
* the Streamlit data-explorer export is modelled as a small heap program so
  that its copy-on-export behaviour is an actual frame property.
-/

/-! ## Characters and whitespace (Python `str` semantics, ASCII fragment) -/

/-- Python whitespace characters recognised by `str.strip`, restricted to the
ASCII range: space, tab, newline, carriage return, vertical tab, form feed. -/
def wsChar (c : Char) : Bool :=
  c = ' ' || c = '\t' || c = '\n' || c = '\r' || c = '\x0b' || c = '\x0c'

/-- Python `str.strip()`: remove leading and trailing whitespace. -/
def pyStrip (l : List Char) : List Char :=
  (l.dropWhile wsChar).rdropWhile wsChar

/-- One left-to-right, non-overlapping replacement pass, the semantics of
Python `str.replace(pat, rep)` for a non-empty pattern (and of
`pandas.Series.str.replace` with `regex=False`).  The `Nat` argument is
structural fuel; `replaceList` below supplies `l.length`, which always
suffices, so the guard branch returning `l` unchanged is never reached. -/
def replaceListAux (pat rep : List Char) : Nat → List Char → List Char
  | _, [] => []
  | 0, l => l
  | fuel+1, c :: cs =>
    if pat ≠ [] ∧ pat.isPrefixOf (c :: cs) then
      rep ++ replaceListAux pat rep fuel ((c :: cs).drop pat.length)
    else
      c :: replaceListAux pat rep fuel cs

/-- Python `s.replace(pat, rep)` on lists of characters. -/
def replaceList (pat rep : List Char) (l : List Char) : List Char :=
  replaceListAux pat rep l.length l

/-- The column-name normalization of `load_excel.norm` in `app.py`:
`strip`, `lower`, then the four single-pass replacements
`"\n" -> " "`, `"\r" -> " "`, `"  " -> " "`, `" " -> "_"`, in that order. -/
def normName (s : List Char) : List Char :=
  replaceList [' '] ['_']
    (replaceList [' ', ' '] [' ']
      (replaceList ['\r'] [' ']
        (replaceList ['\n'] [' ']
          ((pyStrip s).map Char.toLower))))

/-- A loaded sheet, abstracted to its column identifiers (the only part of a
sheet that `load_excel.norm` acts on). -/
structure Sheet where
  cols : List (List Char)
deriving DecidableEq

/-- `load_excel.norm` applied to a whole sheet: normalize every column name. -/
def normSheet (s : Sheet) : Sheet :=
  ⟨s.cols.map normName⟩

/-- Substring test: does `pat` occur contiguously in `l`?  This is Python
`pat in s` and, for a pattern without regex metacharacters, also
`re.search(pat, s)` as used by `pandas.Series.str.contains`. -/
def containsSub (l pat : List Char) : Bool :=
  pat.isPrefixOf l ||
    match l with
    | [] => false
    | _ :: cs => containsSub cs pat

/-- `Series.str.contains(pat, case=False, na=False)` applied to one cell:
a missing cell is reported as a non-match (`na=False`), otherwise the match
is case-insensitive (the lowered cell is searched for the lowercase
pattern). -/
def strContainsCI (pat : List Char) (s : Option (List Char)) : Bool :=
  match s with
  | some l => containsSub (l.map Char.toLower) pat
  | none => false

/-! ## Missing-value arithmetic and aggregation (pandas semantics) -/

/-- The values of a column that are actually present (pandas `dropna` /
`skipna` view of a column). -/
def presentVals : List (Option ℚ) → List ℚ
  | [] => []
  | none :: xs => presentVals xs
  | some x :: xs => x :: presentVals xs

/-- pandas `mean` aggregation over a group: missing values are excluded;
a group with no present value aggregates to `NaN` (here `none`). -/
def aggMean (xs : List (Option ℚ)) : Option ℚ :=
  match presentVals xs with
  | [] => none
  | p => some (p.sum / p.length)

/-- pandas `sum` aggregation over a group with the default `min_count=0`:
missing values contribute nothing and an all-missing group sums to `0`. -/
def aggSum (xs : List (Option ℚ)) : ℚ :=
  (presentVals xs).sum

/-- Elementwise subtraction of two columns: pandas propagates `NaN`. -/
def optSub : Option ℚ → Option ℚ → Option ℚ
  | some a, some b => some (a - b)
  | _, _ => none

/-- The sorted distinct keys of a `groupby("round")` (pandas sorts group keys
by default). -/
def groupKeys (rs : List ℚ) : List ℚ :=
  (rs.dedup).insertionSort (· ≤ ·)

/-! ## The Product sheet and its aggregate -/

/-- One row of the normalized `Product` sheet, restricted to the columns the
program reads.  Field names are the normalized column identifiers with the
parenthesised unit suffixes made legal: `service_level_pieces` stands for
`service_level_(pieces)`, `stock_weeks` for `stock_(weeks)`, `mape` for
`forecast_error_(mape)`, `obsoletes_pct` for `obsoletes_(%)`,
`demand_per_week_value` for `demand_per_week_(value)`, `ppa` for
`production_plan_adherence_(%)`. -/
structure ProdRow where
  round : ℚ
  service_level_pieces : Option ℚ
  stock_weeks : Option ℚ
  mape : Option ℚ
  obsoletes_pct : Option ℚ
  demand_per_week_value : Option ℚ
  gross_margin_per_week : Option ℚ
  ppa : Option ℚ
deriving DecidableEq

/-- One row of `prod_agg`.  `cogs` is the column added by
`prod_agg["cogs"] = ...` on line 200 of `app.py`; before that assignment the
column does not exist, modelled as the field being `none`. -/
structure ProdAggRow where
  round : ℚ
  avg_service_pct : Option ℚ
  fg_stock_weeks_avg : Option ℚ
  mape_pct : Option ℚ
  product_obsol_pct_avg : Option ℚ
  realized_revenue : Option ℚ
  gross_margin_per_week : Option ℚ
  cogs : Option ℚ
deriving DecidableEq

/-- `prod.groupby("round").agg(...)` of `app.py` lines 190-197: one output
row per distinct round, means computed with skipna, sums with
`min_count=0`. -/
def prod_agg (prod : List ProdRow) : List ProdAggRow :=
  (groupKeys (prod.map (·.round))).map fun k =>
    let g := prod.filter (fun r => r.round = k)
    { round := k
      avg_service_pct := aggMean (g.map (·.service_level_pieces))
      fg_stock_weeks_avg := aggMean (g.map (·.stock_weeks))
      mape_pct := aggMean (g.map (·.mape))
      product_obsol_pct_avg := aggMean (g.map (·.obsoletes_pct))
      realized_revenue := some (aggSum (g.map (·.demand_per_week_value)))
      gross_margin_per_week := some (aggSum (g.map (·.gross_margin_per_week)))
      cogs := none }

/-- `prod_agg["cogs"] = prod_agg["realized_revenue"] -
prod_agg["gross_margin_per_week"]` (line 200): elementwise subtraction with
`NaN` propagation. -/
def prod_agg_cogs (prod : List ProdRow) : List ProdAggRow :=
  (prod_agg prod).map fun r =>
    { r with cogs := optSub r.realized_revenue r.gross_margin_per_week }

/-! ## The Component sheet, its aggregate, the vitamin filter, the pivots -/

/-- One row of the normalized `Component` sheet, restricted to the columns
the program reads.  `component` may be missing (an empty cell);
`availability_pct` stands for `component_availability_(%)`,
`delivery_reliability_pct` for `delivery_reliability_(%)`. -/
structure CompRow where
  round : ℚ
  component : Option (List Char)
  availability_pct : Option ℚ
  stock_weeks : Option ℚ
  obsoletes_pct : Option ℚ
  delivery_reliability_pct : Option ℚ
deriving DecidableEq

/-- One row of `comp_agg` (`app.py` lines 203-208). -/
structure CompAggRow where
  round : ℚ
  component_availability_pct_avg : Option ℚ
  component_stock_weeks_avg : Option ℚ
  component_obsolescence_pct_avg : Option ℚ
  component_delivery_reliability_pct_avg : Option ℚ
deriving DecidableEq

/-- `comp.groupby("round").agg(...)` of `app.py` lines 203-208. -/
def comp_agg (comp : List CompRow) : List CompAggRow :=
  (groupKeys (comp.map (·.round))).map fun k =>
    let g := comp.filter (fun r => r.round = k)
    { round := k
      component_availability_pct_avg := aggMean (g.map (·.availability_pct))
      component_stock_weeks_avg := aggMean (g.map (·.stock_weeks))
      component_obsolescence_pct_avg := aggMean (g.map (·.obsoletes_pct))
      component_delivery_reliability_pct_avg := aggMean (g.map (·.delivery_reliability_pct)) }

/-- `vitc = comp[comp["component"].str.contains("vitamin", case=False,
na=False)]` (line 211). -/
def vitc (comp : List CompRow) : List CompRow :=
  comp.filter fun r => strContainsCI ("vitamin".toList) r.component

/-- The distinct `(round, component)` key pairs of
`comp.groupby(["round", "component"])`: rows whose component name is missing
carry no key and are dropped (`groupby` drops missing keys). -/
def pivotKeys (comp : List CompRow) : List (ℚ × List Char) :=
  (comp.filterMap fun r => r.component.map fun c => (r.round, c)).dedup

/-- The aggregated cells of
`comp.pivot_table(index="round", columns="component", values=..., aggfunc="mean")`
with the default `dropna=True`: one entry per `(round, component)` group
whose skipna mean is present; all-missing groups are dropped, which is what
makes all-missing rows and columns disappear from the reshaped frame. -/
def pivotAgg (comp : List CompRow) (val : CompRow → Option ℚ) :
    List ((ℚ × List Char) × ℚ) :=
  (pivotKeys comp).filterMap fun k =>
    (aggMean ((comp.filter fun r => r.round = k.1 ∧ r.component = some k.2).map val)).map
      fun m => (k, m)

/-- The cell of the pivot table at `(round = r, component = c)`; `none` when
the reshaped frame has no value there. -/
def pivotCell (comp : List CompRow) (val : CompRow → Option ℚ) (r : ℚ) (c : List Char) :
    Option ℚ :=
  ((pivotAgg comp val).find? fun p => p.1 = (r, c)).map (·.2)

/-- The row index (rounds) of the pivot table. -/
def pivotRowKeys (comp : List CompRow) (val : CompRow → Option ℚ) : List ℚ :=
  ((pivotAgg comp val).map (·.1.1)).dedup

/-- The column index (component names) of the pivot table. -/
def pivotColKeys (comp : List CompRow) (val : CompRow → Option ℚ) : List (List Char) :=
  ((pivotAgg comp val).map (·.1.2)).dedup

/-! ## The Warehouse sheet and the per-round operational aggregates -/

/-- One row of the normalized `Warehouse, Salesarea` sheet, restricted to the
columns the program reads; `cube_utilization_pct` stands for
`cube_utilization_(%)`. -/
structure WhRow where
  round : ℚ
  warehouse : Option (List Char)
  cube_utilization_pct : Option ℚ
deriving DecidableEq

/-- The common shape of `inbound` and `outbound` (`app.py` lines 219-222):
filter warehouses by a case-insensitive substring of the warehouse name,
then take the per-round skipna mean of `cube_utilization_(%)`. -/
def whFilterAgg (pat : List Char) (wh : List WhRow) : List (ℚ × Option ℚ) :=
  let f := wh.filter fun r => strContainsCI pat r.warehouse
  (groupKeys (f.map (·.round))).map fun k =>
    (k, aggMean ((f.filter fun r => r.round = k).map (·.cube_utilization_pct)))

/-- `inbound` (line 219): warehouses containing "raw materials". -/
def inbound (wh : List WhRow) : List (ℚ × Option ℚ) :=
  whFilterAgg ("raw materials".toList) wh

/-- `outbound` (line 221): warehouses containing "finished goods". -/
def outbound (wh : List WhRow) : List (ℚ × Option ℚ) :=
  whFilterAgg ("finished goods".toList) wh

/-- `ppa` (line 223): per-round skipna mean of
`production_plan_adherence_(%)` over the Product sheet. -/
def ppaAgg (prod : List ProdRow) : List (ℚ × Option ℚ) :=
  (groupKeys (prod.map (·.round))).map fun k =>
    (k, aggMean ((prod.filter fun r => r.round = k).map (·.ppa)))

/-! ## The round index and the left-join chain building `overview` -/

/-- `rounds_df = pd.DataFrame({"round": sorted(prod_agg["round"].unique())})`
(line 226). -/
def rounds_df (prod : List ProdRow) : List ℚ :=
  (((prod_agg_cogs prod).map (·.round)).dedup).insertionSort (· ≤ ·)

/-- `left.merge(right, on="round", how="left")`: each left row is paired with
every right row sharing its key, or with `none` when the right table has no
such row.  Left rows are never dropped; a left row is duplicated exactly when
several right rows share its key. -/
def leftMerge {α β : Type} (l : List (ℚ × α)) (r : List (ℚ × β)) :
    List (ℚ × α × Option β) :=
  l.flatMap fun p =>
    match r.filter fun q => q.1 = p.1 with
    | [] => [(p.1, p.2, none)]
    | ms => ms.map fun q => (p.1, p.2, some q.2)

/-- The successive left-joins of `app.py` lines 227-234 building `overview`:
`rounds_df` joined with `prod_agg`, `comp_agg`, `inbound`, `outbound`,
`ppa`, keyed on `round`. -/
def overviewTable (prod : List ProdRow) (comp : List CompRow) (wh : List WhRow) :=
  let m1 := leftMerge ((rounds_df prod).map fun k => (k, ()))
    ((prod_agg_cogs prod).map fun r => (r.round, r))
  let m2 := leftMerge m1 ((comp_agg comp).map fun r => (r.round, r))
  let m3 := leftMerge m2 (inbound wh)
  let m4 := leftMerge m3 (outbound wh)
  leftMerge m4 (ppaAgg prod)

/-- One row of the overview restricted to `show_cols` (the Data-Explorer
column list of `app.py` lines 433-437). -/
structure OverviewRow where
  round : ℚ
  avg_service_pct : Option ℚ
  component_availability_pct_avg : Option ℚ
  fg_stock_weeks_avg : Option ℚ
  mape_pct : Option ℚ
  product_obsol_pct_avg : Option ℚ
  realized_revenue : Option ℚ
  cogs : Option ℚ
  gross_margin_per_week : Option ℚ
  inbound_util : Option ℚ
  outbound_util : Option ℚ
  ppa : Option ℚ
deriving DecidableEq

/-- Flatten one joined row into its `show_cols` columns: a column of a
domain that did not match the round is `NaN` (here the `Option.bind` of the
missing payload), exactly the fill behaviour of a pandas left merge. -/
def flattenRow
    (x : ℚ × ((((Unit × Option ProdAggRow) × Option CompAggRow) × Option (Option ℚ)) ×
      Option (Option ℚ)) × Option (Option ℚ)) : OverviewRow :=
  match x with
  | (k, (((((_, mp), mc), mi), mo), mq)) =>
    { round := k
      avg_service_pct := mp.bind (·.avg_service_pct)
      component_availability_pct_avg := mc.bind (·.component_availability_pct_avg)
      fg_stock_weeks_avg := mp.bind (·.fg_stock_weeks_avg)
      mape_pct := mp.bind (·.mape_pct)
      product_obsol_pct_avg := mp.bind (·.product_obsol_pct_avg)
      realized_revenue := mp.bind (·.realized_revenue)
      cogs := mp.bind (·.cogs)
      gross_margin_per_week := mp.bind (·.gross_margin_per_week)
      inbound_util := mi.bind id
      outbound_util := mo.bind id
      ppa := mq.bind id }

/-- The overview restricted to the Data-Explorer columns. -/
def overviewRows (prod : List ProdRow) (comp : List CompRow) (wh : List WhRow) :
    List OverviewRow :=
  (overviewTable prod comp wh).map flattenRow

/-- `ov = overview[mask]` for the sidebar round-range mask (lines 243-244). -/
def ovSlice (lo hi : ℚ) (t : List OverviewRow) : List OverviewRow :=
  t.filter fun r => lo ≤ r.round ∧ r.round ≤ hi

/-! ## Workbook loading and the required-sheet check -/

/-- The source workbook: a list of named raw sheets. -/
def Workbook := List (List Char × Sheet)

/-- `load_excel.get_sheet` (lines 89-92): a present sheet is normalized, an
absent one yields an explicit `None`. -/
def get_sheet (wb : Workbook) (name : List Char) : Option Sheet :=
  match wb.find? fun p => p.1 = name with
  | some p => some (normSheet p.2)
  | none => none

/-- The message of the `st.error` call on line 186. -/
def requiredSheetsMsg : List Char :=
  ("Required sheets not found. Please make sure `TFC_0_6.xlsx` has sheets: " ++
    "Product, Component, Warehouse, Salesarea.").toList

/-- The startup check of lines 180-187: fetch the three required sheets and
halt the session (`st.error` + `st.stop`, so nothing further renders) if any
is missing; otherwise hand the three sheets to the rest of the pipeline. -/
def loadCheck (wb : Workbook) : Except (List Char) (Sheet × Sheet × Sheet) :=
  match get_sheet wb ("Product".toList), get_sheet wb ("Component".toList),
      get_sheet wb ("Warehouse, Salesarea".toList) with
  | some p, some c, some w => Except.ok (p, c, w)
  | _, _, _ => Except.error requiredSheetsMsg

/-! ## The Data-Explorer export (lines 438-445) as a heap program -/

/-- Round a rational to the nearest integer, ties to even: the rounding of
IEEE / numpy `round` that pandas `Series.round` uses. -/
def roundHalfEven (q : ℚ) : ℤ :=
  let f := ⌊q⌋
  let r := q - f
  if r < 1/2 then f
  else if 1/2 < r then f + 1
  else if Even f then f else f + 1

/-- `x.round(2)`: round to two decimal places. -/
def roundTo2 (q : ℚ) : ℚ :=
  (roundHalfEven (q * 100) : ℚ) / 100

/-- `(v * 100).round(2)` on one cell; `NaN` stays `NaN`. -/
def scaleVal (v : Option ℚ) : Option ℚ :=
  v.map fun q => roundTo2 (q * 100)

/-- The percentage columns rescaled for display (`pct_cols`, lines 440-441). -/
inductive PctCol where
  | avg_service_pct
  | component_availability_pct_avg
  | mape_pct
  | product_obsol_pct_avg
  | inbound_util
  | outbound_util
  | ppa
deriving DecidableEq

/-- The `pct_cols` list of line 440, in program order. -/
def pct_cols : List PctCol :=
  [PctCol.avg_service_pct, PctCol.component_availability_pct_avg, PctCol.mape_pct,
   PctCol.product_obsol_pct_avg, PctCol.inbound_util, PctCol.outbound_util, PctCol.ppa]

/-- `tidy[c] = (tidy[c]*100).round(2)` for a single column `c`, applied to
one row. -/
def applyPctCol (c : PctCol) (r : OverviewRow) : OverviewRow :=
  match c with
  | PctCol.avg_service_pct => { r with avg_service_pct := scaleVal r.avg_service_pct }
  | PctCol.component_availability_pct_avg =>
    { r with component_availability_pct_avg := scaleVal r.component_availability_pct_avg }
  | PctCol.mape_pct => { r with mape_pct := scaleVal r.mape_pct }
  | PctCol.product_obsol_pct_avg =>
    { r with product_obsol_pct_avg := scaleVal r.product_obsol_pct_avg }
  | PctCol.inbound_util => { r with inbound_util := scaleVal r.inbound_util }
  | PctCol.outbound_util => { r with outbound_util := scaleVal r.outbound_util }
  | PctCol.ppa => { r with ppa := scaleVal r.ppa }

/-- All seven column rescalings applied to one row: the cumulative effect of
the `for c in pct_cols` loop on that row of the copy. -/
def tidyRow (r : OverviewRow) : OverviewRow :=
  { r with
    avg_service_pct := scaleVal r.avg_service_pct
    component_availability_pct_avg := scaleVal r.component_availability_pct_avg
    mape_pct := scaleVal r.mape_pct
    product_obsol_pct_avg := scaleVal r.product_obsol_pct_avg
    inbound_util := scaleVal r.inbound_util
    outbound_util := scaleVal r.outbound_util
    ppa := scaleVal r.ppa }

/-- A heap of tables, so that pandas object identity (which DataFrame a
column assignment mutates) is explicit. -/
structure Heap where
  tables : List (List OverviewRow)

/-- Read the table stored at reference `i`. -/
def readT (h : Heap) (i : Nat) : List OverviewRow :=
  (h.tables[i]?).getD []

/-- Overwrite the table stored at reference `i`. -/
def writeT (h : Heap) (i : Nat) (t : List OverviewRow) : Heap :=
  ⟨h.tables.set i t⟩

/-- Allocate a fresh table, returning its reference. -/
def allocT (h : Heap) (t : List OverviewRow) : Heap × Nat :=
  (⟨h.tables ++ [t]⟩, h.tables.length)

/-- The Data-Explorer export (lines 438-445):
`tidy = ov[show_cols].copy()` allocates a fresh table holding the rows of
`ov` (the `OverviewRow` type is already the `show_cols` selection), then
each percentage column of `tidy` is rescaled in place, one column-assignment
(heap write) per entry of `pct_cols`.  Returns the final heap and the
reference to `tidy`, whose contents are what `to_csv` serialises. -/
def dataExplorer (h : Heap) (ovRef : Nat) : Heap × Nat :=
  let copied := allocT h (readT h ovRef)
  let tidyRef := copied.2
  let hFinal := pct_cols.foldl
    (fun hh c => writeT hh tidyRef ((readT hh tidyRef).map (applyPctCol c))) copied.1
  (hFinal, tidyRef)

/-! ## Character-level lemmas -/

theorem char_toNat_ofNat (n : Nat) (h : n.isValidChar) : (Char.ofNat n).toNat = n := by
  rw [Char.ofNat, dif_pos h]
  rfl

theorem char_toNat_inj {a b : Char} (h : a.toNat = b.toNat) : a = b :=
  Char.ext (UInt32.toNat.inj h)

theorem wsChar_iff (c : Char) :
    wsChar c = true ↔ c.toNat = 32 ∨ c.toNat = 9 ∨ c.toNat = 10 ∨ c.toNat = 13 ∨
      c.toNat = 11 ∨ c.toNat = 12 := by
  constructor
  · intro h
    simp only [wsChar, Bool.or_eq_true, decide_eq_true_eq] at h
    rcases h with ((((h|h)|h)|h)|h)|h <;> subst h <;> simp [Char.toNat]
  · intro h
    have hc : c = ' ' ∨ c = '\t' ∨ c = '\n' ∨ c = '\r' ∨ c = '\x0b' ∨ c = '\x0c' := by
      rcases h with h|h|h|h|h|h
      · exact Or.inl (char_toNat_inj h)
      · exact Or.inr (Or.inl (char_toNat_inj h))
      · exact Or.inr (Or.inr (Or.inl (char_toNat_inj h)))
      · exact Or.inr (Or.inr (Or.inr (Or.inl (char_toNat_inj h))))
      · exact Or.inr (Or.inr (Or.inr (Or.inr (Or.inl (char_toNat_inj h)))))
      · exact Or.inr (Or.inr (Or.inr (Or.inr (Or.inr (char_toNat_inj h)))))
    rcases hc with h|h|h|h|h|h <;> subst h <;> rfl

theorem toLower_toNat (c : Char) :
    (Char.toLower c).toNat = if 65 ≤ c.toNat ∧ c.toNat ≤ 90 then c.toNat + 32 else c.toNat := by
  unfold Char.toLower
  split
  · next h =>
    rw [if_pos (by omega)]
    exact char_toNat_ofNat _ (Or.inl (by omega))
  · next h =>
    rw [if_neg (by omega)]

theorem toLower_idem (c : Char) : (Char.toLower c).toLower = Char.toLower c := by
  apply char_toNat_inj
  rw [toLower_toNat c.toLower, toLower_toNat c]
  by_cases hc : 65 ≤ c.toNat ∧ c.toNat ≤ 90
  · rw [if_pos hc, if_neg (by omega)]
  · rw [if_neg hc, if_neg hc]

theorem wsChar_toLower (c : Char) : wsChar (Char.toLower c) = wsChar c := by
  have h3 := toLower_toNat c
  rcases Bool.eq_false_or_eq_true (wsChar c) with h | h
  · rw [h]
    rw [wsChar_iff] at h ⊢
    rw [h3, if_neg (by omega)]
    exact h
  · rw [h]
    rw [Bool.eq_false_iff] at h ⊢
    intro hc
    apply h
    rw [wsChar_iff] at hc ⊢
    rw [h3] at hc
    revert hc
    split <;> intro hc <;> omega

/-! ## `replaceList` lemmas -/

theorem replaceListAux_mem {pat rep : List Char} :
    ∀ (fuel : Nat) (l : List Char) (c : Char),
      c ∈ replaceListAux pat rep fuel l → c ∈ rep ∨ c ∈ l := by
  intro fuel
  induction fuel with
  | zero =>
    intro l c h
    cases l with
    | nil => simp [replaceListAux] at h
    | cons a as => exact Or.inr h
  | succ fuel ih =>
    intro l c h
    cases l with
    | nil => simp [replaceListAux] at h
    | cons a as =>
      simp only [replaceListAux] at h
      split at h
      · rcases List.mem_append.mp h with h1 | h1
        · exact Or.inl h1
        · rcases ih _ _ h1 with h2 | h2
          · exact Or.inl h2
          · exact Or.inr (List.mem_of_mem_drop h2)
      · rcases List.mem_cons.mp h with h1 | h1
        · exact Or.inr (h1 ▸ List.mem_cons_self a as)
        · rcases ih _ _ h1 with h2 | h2
          · exact Or.inl h2
          · exact Or.inr (List.mem_cons_of_mem a h2)

theorem replaceList_mem {pat rep l : List Char} {c : Char}
    (h : c ∈ replaceList pat rep l) : c ∈ rep ∨ c ∈ l :=
  replaceListAux_mem _ _ _ h

theorem replaceListAux_single_not_mem {x : Char} {rep : List Char} (hx : x ∉ rep) :
    ∀ (fuel : Nat) (l : List Char), l.length ≤ fuel → x ∉ replaceListAux [x] rep fuel l := by
  intro fuel
  induction fuel with
  | zero =>
    intro l hlen
    have : l = [] := List.length_eq_zero.mp (Nat.le_zero.mp hlen)
    subst this
    simp [replaceListAux]
  | succ fuel ih =>
    intro l hlen
    cases l with
    | nil => simp [replaceListAux]
    | cons a as =>
      simp only [replaceListAux]
      split
      · next hcond =>
        intro hmem
        rcases List.mem_append.mp hmem with h1 | h1
        · exact hx h1
        · simp only [List.length_cons, List.drop_succ_cons, List.drop_zero] at h1
          exact ih as (by simpa using hlen) h1
      · next hcond =>
        intro hmem
        have hxa : x ≠ a := by
          intro hxe
          apply hcond
          refine ⟨by simp, ?_⟩
          subst hxe
          simp [List.isPrefixOf]
        rcases List.mem_cons.mp hmem with h1 | h1
        · exact hxa h1
        · exact ih as (by simpa using hlen) h1

theorem replaceList_single_not_mem {x : Char} {rep l : List Char} (hx : x ∉ rep) :
    x ∉ replaceList [x] rep l :=
  replaceListAux_single_not_mem hx _ _ le_rfl

theorem replaceListAux_no_occ {p : Char} {pat2 rep : List Char} :
    ∀ (fuel : Nat) (l : List Char), p ∉ l → replaceListAux (p :: pat2) rep fuel l = l := by
  intro fuel
  induction fuel with
  | zero =>
    intro l _
    cases l <;> rfl
  | succ fuel ih =>
    intro l hp
    cases l with
    | nil => rfl
    | cons a as =>
      simp only [replaceListAux]
      rw [if_neg]
      · rw [ih as fun h => hp (List.mem_cons_of_mem a h)]
      · rintro ⟨-, hpre⟩
        simp only [List.isPrefixOf, Bool.and_eq_true, beq_iff_eq] at hpre
        exact hp (hpre.1 ▸ List.mem_cons_self a as)

theorem replaceList_no_occ {p : Char} {pat2 rep l : List Char} (hp : p ∉ l) :
    replaceList (p :: pat2) rep l = l :=
  replaceListAux_no_occ _ _ hp

theorem replaceList_head? {pat rep l : List Char}
    (hpat : ∀ p ∈ pat, wsChar p = true)
    (hl : ∀ c, l.head? = some c → wsChar c = false) :
    (replaceList pat rep l).head? = l.head? := by
  cases l with
  | nil => rfl
  | cons a as =>
    have ha : wsChar a = false := hl a rfl
    rw [replaceList]
    simp only [List.length_cons, replaceListAux]
    rw [if_neg]
    · rfl
    · rintro ⟨hne, hpre⟩
      cases pat with
      | nil => exact hne rfl
      | cons p ps =>
        simp only [List.isPrefixOf, Bool.and_eq_true, beq_iff_eq] at hpre
        have hw := hpat p (List.mem_cons_self _ _)
        rw [hpre.1] at hw
        rw [hw] at ha
        cases ha

theorem replaceListAux_nil (pat rep : List Char) (fuel : Nat) :
    replaceListAux pat rep fuel [] = [] := by
  cases fuel <;> rfl

theorem replaceListAux_getLast? {pat rep : List Char}
    (hpat : ∀ p ∈ pat, wsChar p = true) :
    ∀ (fuel : Nat) (l : List Char), l.length ≤ fuel →
      (∀ c, l.getLast? = some c → wsChar c = false) →
      (replaceListAux pat rep fuel l).getLast? = l.getLast? := by
  intro fuel
  induction fuel with
  | zero =>
    intro l hlen _
    have hnil : l = [] := List.length_eq_zero.mp (Nat.le_zero.mp hlen)
    subst hnil
    rfl
  | succ fuel ih =>
    intro l hlen hlast
    cases l with
    | nil => rfl
    | cons a as =>
      simp only [replaceListAux]
      split
      · next hcond =>
        obtain ⟨hne, hpre⟩ := hcond
        obtain ⟨t, ht⟩ := List.isPrefixOf_iff_prefix.mp hpre
        have hdrop : (a :: as).drop pat.length = t := by
          rw [← ht, List.drop_left]
        rw [hdrop]
        cases t with
        | nil =>
          exfalso
          rw [List.append_nil] at ht
          have h1 : (a :: as).getLast? = some ((a :: as).getLast (by simp)) :=
            List.getLast?_eq_getLast _ _
          have h2 := hlast _ h1
          have h3 : (a :: as).getLast (by simp) ∈ (a :: as) := List.getLast_mem _
          have h4 := hpat _ (by rw [ht]; exact h3)
          rw [h4] at h2
          cases h2
        | cons b bs =>
          have hlt : (a :: as).getLast? = (b :: bs).getLast? := by
            rw [← ht, List.getLast?_append]
            cases hlb : (b :: bs).getLast? with
            | none => simp at hlb
            | some y => simp [Option.or_some]
          have hlen2 : (b :: bs).length ≤ fuel := by
            have hlen3 := congrArg List.length ht
            simp only [List.length_append, List.length_cons] at hlen3
            have hp1 : 1 ≤ pat.length := by
              cases pat with
              | nil => exact absurd rfl hne
              | cons _ _ => simp
            simp only [List.length_cons] at hlen
            simp only [List.length_cons]
            omega
          have hlast2 : ∀ c, (b :: bs).getLast? = some c → wsChar c = false := by
            intro c hc
            apply hlast
            rw [hlt]
            exact hc
          have hrec := ih (b :: bs) hlen2 hlast2
          rw [List.getLast?_append, hrec, hlt]
          cases hlb : (b :: bs).getLast? with
          | none => simp at hlb
          | some y => simp [Option.or_some]
      · next hcond =>
        cases as with
        | nil => rw [replaceListAux_nil]
        | cons b bs =>
          have hlast2 : ∀ c, (b :: bs).getLast? = some c → wsChar c = false := by
            intro c hc
            apply hlast
            rw [List.getLast?_cons_cons]
            exact hc
          have hrec := ih (b :: bs) (by simpa using hlen) hlast2
          rw [List.getLast?_cons_cons]
          cases haux : replaceListAux pat rep fuel (b :: bs) with
          | nil =>
            rw [haux] at hrec
            have hbs : (b :: bs : List Char) = [] := by
              rw [← List.getLast?_eq_none_iff, ← hrec]
              rfl
            cases hbs
          | cons c rest =>
            rw [haux] at hrec
            rw [List.getLast?_cons_cons, hrec]

theorem replaceList_getLast? {pat rep l : List Char}
    (hpat : ∀ p ∈ pat, wsChar p = true)
    (hl : ∀ c, l.getLast? = some c → wsChar c = false) :
    (replaceList pat rep l).getLast? = l.getLast? :=
  replaceListAux_getLast? hpat _ _ le_rfl hl

/-! ## Normalizer properties -/

theorem pyStrip_head? (l : List Char) (c : Char) (hc : (pyStrip l).head? = some c) :
    wsChar c = false := by
  simp only [pyStrip] at hc
  obtain ⟨t, ht⟩ := List.rdropWhile_prefix wsChar (l.dropWhile wsChar)
  have h1 : (l.dropWhile wsChar).head? = some c := by
    rw [← ht, List.head?_append, hc]
    rfl
  have h2 := List.head?_dropWhile_not wsChar l
  rw [h1] at h2
  exact h2

theorem pyStrip_getLast? (l : List Char) (c : Char) (hc : (pyStrip l).getLast? = some c) :
    wsChar c = false := by
  simp only [pyStrip] at hc
  have hne : (l.dropWhile wsChar).rdropWhile wsChar ≠ [] := by
    intro h
    rw [h] at hc
    cases hc
  have h2 := List.getLast?_eq_getLast _ hne
  rw [hc] at h2
  have h1 := List.rdropWhile_last_not wsChar (l.dropWhile wsChar) hne
  rw [Bool.eq_false_iff]
  intro hcc
  apply h1
  rw [← Option.some.inj h2]
  exact hcc

theorem replaceList_head_ws {pat rep l : List Char}
    (hpat : ∀ p ∈ pat, wsChar p = true)
    (hl : ∀ c, l.head? = some c → wsChar c = false) :
    ∀ c, (replaceList pat rep l).head? = some c → wsChar c = false := by
  intro c hc
  rw [replaceList_head? hpat hl] at hc
  exact hl c hc

theorem replaceList_getLast_ws {pat rep l : List Char}
    (hpat : ∀ p ∈ pat, wsChar p = true)
    (hl : ∀ c, l.getLast? = some c → wsChar c = false) :
    ∀ c, (replaceList pat rep l).getLast? = some c → wsChar c = false := by
  intro c hc
  rw [replaceList_getLast? hpat hl] at hc
  exact hl c hc

theorem lowerBase_head_ws (s : List Char) :
    ∀ c, (((pyStrip s).map Char.toLower)).head? = some c → wsChar c = false := by
  intro c hc
  rw [List.head?_map] at hc
  cases hh : (pyStrip s).head? with
  | none => rw [hh] at hc; cases hc
  | some e =>
    rw [hh] at hc
    have he := pyStrip_head? s e hh
    have hce : c = Char.toLower e := by
      simpa using hc.symm
    rw [hce, wsChar_toLower]
    exact he

theorem lowerBase_getLast_ws (s : List Char) :
    ∀ c, (((pyStrip s).map Char.toLower)).getLast? = some c → wsChar c = false := by
  intro c hc
  rw [List.getLast?_map] at hc
  cases hh : (pyStrip s).getLast? with
  | none => rw [hh] at hc; cases hc
  | some e =>
    rw [hh] at hc
    have he := pyStrip_getLast? s e hh
    have hce : c = Char.toLower e := by
      simpa using hc.symm
    rw [hce, wsChar_toLower]
    exact he

theorem normName_head? (s : List Char) (c : Char) (hc : (normName s).head? = some c) :
    wsChar c = false := by
  simp only [normName] at hc
  exact replaceList_head_ws (by decide)
    (replaceList_head_ws (by decide)
      (replaceList_head_ws (by decide)
        (replaceList_head_ws (by decide) (lowerBase_head_ws s)))) c hc

theorem normName_getLast? (s : List Char) (c : Char) (hc : (normName s).getLast? = some c) :
    wsChar c = false := by
  simp only [normName] at hc
  exact replaceList_getLast_ws (by decide)
    (replaceList_getLast_ws (by decide)
      (replaceList_getLast_ws (by decide)
        (replaceList_getLast_ws (by decide) (lowerBase_getLast_ws s)))) c hc

theorem normName_no_space (s : List Char) : ' ' ∉ normName s := by
  simp only [normName]
  exact replaceList_single_not_mem (by decide)

theorem normName_no_newline (s : List Char) : '\n' ∉ normName s := by
  simp only [normName]
  intro h
  rcases replaceList_mem h with h1 | h1
  · exact absurd h1 (by decide)
  · rcases replaceList_mem h1 with h2 | h2
    · exact absurd h2 (by decide)
    · rcases replaceList_mem h2 with h3 | h3
      · exact absurd h3 (by decide)
      · exact replaceList_single_not_mem (by decide) h3

theorem normName_no_cr (s : List Char) : '\r' ∉ normName s := by
  simp only [normName]
  intro h
  rcases replaceList_mem h with h1 | h1
  · exact absurd h1 (by decide)
  · rcases replaceList_mem h1 with h2 | h2
    · exact absurd h2 (by decide)
    · exact replaceList_single_not_mem (by decide) h2

theorem normName_lower_fixed (s : List Char) :
    ∀ c ∈ normName s, Char.toLower c = c := by
  intro c h
  simp only [normName] at h
  rcases replaceList_mem h with h1 | h1
  · rw [List.mem_singleton] at h1
    subst h1
    decide
  · rcases replaceList_mem h1 with h2 | h2
    · rw [List.mem_singleton] at h2
      subst h2
      decide
    · rcases replaceList_mem h2 with h3 | h3
      · rw [List.mem_singleton] at h3
        subst h3
        decide
      · rcases replaceList_mem h3 with h4 | h4
        · rw [List.mem_singleton] at h4
          subst h4
          decide
        · obtain ⟨d, -, hd⟩ := List.mem_map.mp h4
          rw [← hd]
          exact toLower_idem d

theorem map_fixed_id {f : Char → Char} (l : List Char) (h : ∀ c ∈ l, f c = c) :
    l.map f = l := by
  induction l with
  | nil => rfl
  | cons a as ih =>
    rw [List.map_cons, h a (List.mem_cons_self _ _),
      ih fun c hc => h c (List.mem_cons_of_mem _ hc)]

theorem normName_strip_eq (s : List Char) : pyStrip (normName s) = normName s := by
  cases ht : normName s with
  | nil => rfl
  | cons a as =>
    have ha : wsChar a = false := normName_head? s a (by rw [ht]; rfl)
    have hlast : ∀ c, (a :: as).getLast? = some c → wsChar c = false := by
      intro c hc
      exact normName_getLast? s c (by rw [ht]; exact hc)
    simp only [pyStrip, List.dropWhile_cons]
    rw [ha]
    simp only [Bool.false_eq_true, if_false]
    apply List.rdropWhile_eq_self_iff.mpr
    intro hl
    have hgl := hlast _ (List.getLast?_eq_getLast _ hl)
    simp [hgl]

theorem normName_idem (s : List Char) : normName (normName s) = normName s := by
  conv_lhs => rw [normName]
  rw [normName_strip_eq, map_fixed_id _ (normName_lower_fixed s),
    replaceList_no_occ (normName_no_newline s),
    replaceList_no_occ (normName_no_cr s),
    replaceList_no_occ (normName_no_space s),
    replaceList_no_occ (normName_no_space s)]

/-! ## Claims C1 and C9: the Schema Normalizer -/

/-- C1 counterexample: the column name `"a   b\tc"` has a single interior
whitespace run of three spaces followed by a tab run; the normalizer turns
it into `"a__b\tc"`, which contains two adjacent underscore separators
arising from that single run and still contains a whitespace character (the
tab), contradicting the claim that every run of whitespace is replaced by a
single separator and that the result contains no whitespace. -/
theorem C1_counterexample :
    (normSheet ⟨["a   b\tc".toList]⟩).cols = ["a__b\tc".toList]
    ∧ '\t' ∈ normName ("a   b\tc".toList)
    ∧ wsChar '\t' = true
    ∧ containsSub (normName ("a   b\tc".toList)) ("__".toList) = true := by
  decide

/-- C1 (amended): for every input sheet, every normalized column identifier
is lowercase (fixed under lowering), has no leading or trailing whitespace,
and contains no space, newline, or carriage-return character.  (As the
counterexample shows, other whitespace such as tabs is not converted, and a
run of three or more spaces leaves consecutive underscore separators, so
the stronger single-separator/no-whitespace form of the claim fails.) -/
theorem C1_normalizer_output (sh : Sheet) (name : List Char)
    (h : name ∈ (normSheet sh).cols) :
    name.map Char.toLower = name
    ∧ pyStrip name = name
    ∧ ' ' ∉ name ∧ '\n' ∉ name ∧ '\r' ∉ name := by
  obtain ⟨orig, -, rfl⟩ := List.mem_map.mp h
  exact ⟨map_fixed_id _ (normName_lower_fixed orig), normName_strip_eq orig,
    normName_no_space orig, normName_no_newline orig, normName_no_cr orig⟩

/-- Witness for C1: the sheet with the single column `"Stock (weeks)"`
normalizes to `"stock_(weeks)"`, which satisfies every amended property. -/
theorem C1_witness :
    ("stock_(weeks)".toList ∈ (normSheet ⟨["Stock (weeks)".toList]⟩).cols)
    ∧ ("stock_(weeks)".toList.map Char.toLower = "stock_(weeks)".toList
      ∧ pyStrip ("stock_(weeks)".toList) = "stock_(weeks)".toList
      ∧ ' ' ∉ "stock_(weeks)".toList ∧ '\n' ∉ "stock_(weeks)".toList
      ∧ '\r' ∉ "stock_(weeks)".toList) :=
  ⟨by decide,
    C1_normalizer_output ⟨["Stock (weeks)".toList]⟩ ("stock_(weeks)".toList) (by decide)⟩

/-- C9: column-name normalization is idempotent — normalizing an
already-normalized table leaves every column identifier unchanged, so
`norm (norm t)` has the same column identifiers as `norm t` for every input
table `t`. -/
theorem C9_normalizer_idempotent (sh : Sheet) :
    (normSheet (normSheet sh)).cols = (normSheet sh).cols := by
  simp only [normSheet, List.map_map]
  refine List.map_congr_left ?_
  intro a _
  simp only [Function.comp_apply]
  exact normName_idem a

/-! ## Claims C2 and C4: derived COGS and aggregation semantics -/

/-- C2: in the aggregated Product table with the derived `cogs` column, every
round whose `realized_revenue` and `gross_margin_per_week` aggregates are
both present has `cogs` equal to their exact difference, and a round with
either aggregate absent has `cogs` absent (not zero). -/
theorem C2_cogs_exact (prod : List ProdRow) (row : ProdAggRow)
    (h : row ∈ prod_agg_cogs prod) :
    (∀ a b, row.realized_revenue = some a → row.gross_margin_per_week = some b →
      row.cogs = some (a - b))
    ∧ ((row.realized_revenue = none ∨ row.gross_margin_per_week = none) →
      row.cogs = none) := by
  simp only [prod_agg_cogs, List.mem_map] at h
  obtain ⟨r, -, rfl⟩ := h
  constructor
  · intro a b ha hb
    show optSub r.realized_revenue r.gross_margin_per_week = some (a - b)
    have ha2 : r.realized_revenue = some a := ha
    have hb2 : r.gross_margin_per_week = some b := hb
    rw [ha2, hb2]
    rfl
  · intro h0
    show optSub r.realized_revenue r.gross_margin_per_week = none
    rcases h0 with h0 | h0
    · have h2 : r.realized_revenue = none := h0
      rw [h2]
      cases r.gross_margin_per_week <;> rfl
    · have h2 : r.gross_margin_per_week = none := h0
      rw [h2]
      cases r.realized_revenue <;> rfl

/-- Witness for C2: a one-row Product sheet with weekly demand value `10`
and gross margin `4` yields the single aggregated round `1` with
`cogs = 10 - 4 = 6`. -/
theorem C2_witness :
    ((⟨1, none, none, none, none, some 10, some 4, some 6⟩ : ProdAggRow) ∈
      prod_agg_cogs [⟨1, none, none, none, none, some 10, some 4, none⟩])
    ∧ (⟨1, none, none, none, none, some 10, some 4, some 6⟩ : ProdAggRow).cogs =
      some (10 - 4) := by
  have hmem : (⟨1, none, none, none, none, some 10, some 4, some 6⟩ : ProdAggRow) ∈
      prod_agg_cogs [⟨1, none, none, none, none, some 10, some 4, none⟩] := by
    norm_num [prod_agg_cogs, prod_agg, groupKeys, aggMean, aggSum, presentVals, optSub,
      List.dedup, List.pwFilter, List.insertionSort, List.orderedInsert, List.filter]
  exact ⟨hmem, (C2_cogs_exact _ _ hmem).1 10 4 rfl rfl⟩

/-- C4: mean aggregation by round excludes missing values instead of
treating them as zero — grouped service-level values `[10, missing, 20]`
for round 1 aggregate to mean `15` (not `10`) — while sum aggregation
treats missing values as contributing zero: grouped demand values
`[10, missing, 20]` sum to `30`, and the all-missing gross-margin column
sums to `0`. -/
theorem C4_mean_excludes_missing :
    prod_agg [⟨1, some 10, none, none, none, some 10, none, none⟩,
        ⟨1, none, none, none, none, none, none, none⟩,
        ⟨1, some 20, none, none, none, some 20, none, none⟩] =
      [⟨1, some 15, none, none, none, some 30, some 0, none⟩]
    ∧ (15 : ℚ) ≠ 10 := by
  constructor
  · norm_num [prod_agg, groupKeys, aggMean, aggSum, presentVals, List.dedup, List.pwFilter,
      List.insertionSort, List.orderedInsert, List.filter]
  · norm_num

/-! ## Claim C3: the left-join chain preserves the round index -/

theorem filter_key_length_le_one {β : Type} (r : List (ℚ × β)) (k : ℚ)
    (hr : (r.map (·.1)).Nodup) :
    (r.filter fun q => q.1 = k).length ≤ 1 := by
  induction r with
  | nil => simp
  | cons q r ih =>
    simp only [List.map_cons, List.nodup_cons] at hr
    simp only [List.filter_cons]
    split
    · next hq =>
      simp only [decide_eq_true_eq] at hq
      simp only [List.length_cons]
      have hz : (r.filter fun q2 => q2.1 = k).length = 0 := by
        rw [List.length_eq_zero, List.filter_eq_nil_iff]
        intro a ha
        simp only [decide_eq_true_eq]
        intro hak
        apply hr.1
        exact List.mem_map.mpr ⟨a, ha, by rw [hak, ← hq]⟩
      omega
    · next hq => exact ih hr.2

theorem leftMerge_keys {α β : Type} (l : List (ℚ × α)) (r : List (ℚ × β))
    (hr : (r.map (·.1)).Nodup) :
    (leftMerge l r).map (·.1) = l.map (·.1) := by
  induction l with
  | nil => rfl
  | cons p l ih =>
    have hlen := filter_key_length_le_one r p.1 hr
    simp only [leftMerge, List.flatMap_cons, List.map_append, List.map_cons] at ih ⊢
    cases hms : r.filter fun q => q.1 = p.1 with
    | nil => simpa using ih
    | cons m ms2 =>
      have hms2 : ms2 = [] := by
        rw [hms] at hlen
        simp only [List.length_cons] at hlen
        rw [← List.length_eq_zero]
        omega
      subst hms2
      simpa using ih

theorem groupKeys_nodup (rs : List ℚ) : (groupKeys rs).Nodup := by
  have h1 : (rs.dedup).Nodup := List.nodup_dedup rs
  have h2 := List.perm_insertionSort (· ≤ ·) rs.dedup
  exact h2.symm.nodup h1

theorem prod_agg_keys (prod : List ProdRow) :
    (prod_agg prod).map (·.round) = groupKeys (prod.map (·.round)) := by
  simp only [prod_agg, List.map_map]
  exact (List.map_congr_left fun a _ => rfl).trans (List.map_id _)

theorem prod_agg_cogs_keys (prod : List ProdRow) :
    (prod_agg_cogs prod).map (·.round) = groupKeys (prod.map (·.round)) := by
  simp only [prod_agg_cogs, List.map_map]
  have h : ((prod_agg prod).map fun r =>
      ({ r with cogs := optSub r.realized_revenue r.gross_margin_per_week } : ProdAggRow)).map
        (·.round) = (prod_agg prod).map (·.round) := by
    simp only [List.map_map]
    exact List.map_congr_left fun a _ => rfl
  rw [← List.map_map]
  rw [h]
  exact prod_agg_keys prod

theorem comp_agg_keys (comp : List CompRow) :
    (comp_agg comp).map (·.round) = groupKeys (comp.map (·.round)) := by
  simp only [comp_agg, List.map_map]
  exact (List.map_congr_left fun a _ => rfl).trans (List.map_id _)

theorem whFilterAgg_keys (pat : List Char) (wh : List WhRow) :
    (whFilterAgg pat wh).map (·.1) =
      groupKeys ((wh.filter fun r => strContainsCI pat r.warehouse).map (·.round)) := by
  simp only [whFilterAgg, List.map_map]
  exact (List.map_congr_left fun a _ => rfl).trans (List.map_id _)

theorem ppaAgg_keys (prod : List ProdRow) :
    (ppaAgg prod).map (·.1) = groupKeys (prod.map (·.round)) := by
  simp only [ppaAgg, List.map_map]
  exact (List.map_congr_left fun a _ => rfl).trans (List.map_id _)

theorem rounds_df_nodup (prod : List ProdRow) : (rounds_df prod).Nodup := by
  have h1 := List.nodup_dedup ((prod_agg_cogs prod).map (·.round))
  have h2 := List.perm_insertionSort (· ≤ ·) ((prod_agg_cogs prod).map (·.round)).dedup
  exact h2.symm.nodup h1

theorem overview_keys (prod : List ProdRow) (comp : List CompRow) (wh : List WhRow) :
    (overviewTable prod comp wh).map (·.1) = rounds_df prod := by
  have hk1 : (((prod_agg_cogs prod).map fun r => (r.round, r)).map (·.1)).Nodup := by
    have he : ((prod_agg_cogs prod).map fun r => (r.round, r)).map (·.1) =
        (prod_agg_cogs prod).map (·.round) := by
      simp only [List.map_map]
      exact List.map_congr_left fun a _ => rfl
    rw [he, prod_agg_cogs_keys]
    exact groupKeys_nodup _
  have hk2 : (((comp_agg comp).map fun r => (r.round, r)).map (·.1)).Nodup := by
    have he : ((comp_agg comp).map fun r => (r.round, r)).map (·.1) =
        (comp_agg comp).map (·.round) := by
      simp only [List.map_map]
      exact List.map_congr_left fun a _ => rfl
    rw [he, comp_agg_keys]
    exact groupKeys_nodup _
  have hk3 : ((inbound wh).map (·.1)).Nodup := by
    rw [inbound, whFilterAgg_keys]
    exact groupKeys_nodup _
  have hk4 : ((outbound wh).map (·.1)).Nodup := by
    rw [outbound, whFilterAgg_keys]
    exact groupKeys_nodup _
  have hk5 : ((ppaAgg prod).map (·.1)).Nodup := by
    rw [ppaAgg_keys]
    exact groupKeys_nodup _
  simp only [overviewTable]
  rw [leftMerge_keys _ _ hk5, leftMerge_keys _ _ hk4, leftMerge_keys _ _ hk3,
    leftMerge_keys _ _ hk2, leftMerge_keys _ _ hk1]
  simp only [List.map_map]
  exact (List.map_congr_left fun a _ => rfl).trans (List.map_id _)

/-- C3: every round `R` of the aggregated Product table appears in exactly
one row of the joined overview, and the whole chain of left-joins (with
`comp_agg`, `inbound`, `outbound`, `ppa`) leaves the round column exactly
equal to the `rounds_df` round index built from the Product domain — the
joins add columns but never drop or duplicate rows. -/
theorem C3_overview_round_index (prod : List ProdRow) (comp : List CompRow)
    (wh : List WhRow) (R : ℚ) (hR : R ∈ (prod_agg_cogs prod).map (·.round)) :
    ((overviewTable prod comp wh).map (·.1)).count R = 1
    ∧ (overviewTable prod comp wh).map (·.1) = rounds_df prod := by
  have hkeys := overview_keys prod comp wh
  refine ⟨?_, hkeys⟩
  rw [hkeys]
  have hmem : R ∈ rounds_df prod := by
    rw [rounds_df]
    have hperm := List.perm_insertionSort (· ≤ ·) ((prod_agg_cogs prod).map (·.round)).dedup
    rw [hperm.mem_iff]
    exact List.mem_dedup.mpr hR
  exact List.count_eq_one_of_mem (rounds_df_nodup prod) hmem

/-- Witness for C3: with a one-row Product sheet for round 1 and empty
Component and Warehouse sheets, round 1 appears exactly once in the joined
overview. -/
theorem C3_witness :
    (((overviewTable [⟨1, none, none, none, none, some 10, some 4, none⟩] [] []).map
      (·.1)).count 1 = 1)
    ∧ (overviewTable [⟨1, none, none, none, none, some 10, some 4, none⟩] [] []).map (·.1) =
      rounds_df [⟨1, none, none, none, none, some 10, some 4, none⟩] :=
  C3_overview_round_index _ [] [] 1 (by
    norm_num [prod_agg_cogs, prod_agg, groupKeys, aggMean, aggSum, presentVals, optSub,
      List.dedup, List.pwFilter, List.insertionSort, List.orderedInsert, List.filter])

/-! ## Claim C5: missing sheets -/

/-- C5: for every workbook and every sheet name — required or optional —
an absent name makes `get_sheet` return the explicit missing result
(`none`) rather than failing; and, independently, whenever any of the
three required sheets (Product, Component, Warehouse/Salesarea) is missing
the startup check halts with the user-visible error message — no dashboard
value is produced — and that message names each expected sheet.  The two
conditionals are separate conjuncts, so the loader contract also covers a
workbook missing only an optional sheet such as "Customer". -/
theorem C5_missing_sheet (wb : Workbook) (name : List Char) :
    (wb.find? (fun p => p.1 = name) = none → get_sheet wb name = none)
    ∧ ((get_sheet wb ("Product".toList) = none ∨
        get_sheet wb ("Component".toList) = none ∨
        get_sheet wb ("Warehouse, Salesarea".toList) = none) →
      loadCheck wb = Except.error requiredSheetsMsg)
    ∧ containsSub requiredSheetsMsg ("Product".toList) = true
    ∧ containsSub requiredSheetsMsg ("Component".toList) = true
    ∧ containsSub requiredSheetsMsg ("Warehouse, Salesarea".toList) = true := by
  refine ⟨?_, ?_, by decide, by decide, by decide⟩
  · intro h1
    rw [get_sheet, h1]
  · intro h2
    rw [loadCheck]
    cases hp : get_sheet wb ("Product".toList) with
    | none => rfl
    | some sp =>
      cases hc : get_sheet wb ("Component".toList) with
      | none => rfl
      | some sc =>
        cases hw : get_sheet wb ("Warehouse, Salesarea".toList) with
        | none => rfl
        | some sw =>
          exfalso
          rcases h2 with h | h | h
          · rw [h] at hp
            exact Option.noConfusion hp
          · rw [h] at hc
            exact Option.noConfusion hc
          · rw [h] at hw
            exact Option.noConfusion hw

/-- Witness for C5: a workbook holding exactly the three required sheets
still returns the explicit missing result for the optional "Customer"
sheet (no halt involved), and the empty workbook — missing the required
sheets — halts with the message naming all expected sheets. -/
theorem C5_witness :
    get_sheet [(("Product".toList), ⟨[]⟩), (("Component".toList), ⟨[]⟩),
        (("Warehouse, Salesarea".toList), ⟨[]⟩)] ("Customer".toList) = none
    ∧ loadCheck [] = Except.error requiredSheetsMsg
    ∧ containsSub requiredSheetsMsg ("Product".toList) = true
    ∧ containsSub requiredSheetsMsg ("Component".toList) = true
    ∧ containsSub requiredSheetsMsg ("Warehouse, Salesarea".toList) = true :=
  ⟨(C5_missing_sheet [(("Product".toList), ⟨[]⟩), (("Component".toList), ⟨[]⟩),
      (("Warehouse, Salesarea".toList), ⟨[]⟩)] ("Customer".toList)).1 (by decide),
    (C5_missing_sheet [] ("Customer".toList)).2.1 (Or.inl rfl),
    (C5_missing_sheet [] ("Customer".toList)).2.2.1,
    (C5_missing_sheet [] ("Customer".toList)).2.2.2.1,
    (C5_missing_sheet [] ("Customer".toList)).2.2.2.2⟩

/-! ## Claims C8 and C10: the vitamin filter -/

/-- C8: the Vitamin-C filter selects a Component row exactly when its
component name is present and contains the substring "vitamin"
case-insensitively; concretely, of the two rows named "Vitamin C Premix"
and "Packaging Film", only the former is selected. -/
theorem C8_vitamin_filter :
    (vitc [⟨1, some ("Vitamin C Premix".toList), none, none, none, none⟩,
        ⟨1, some ("Packaging Film".toList), none, none, none, none⟩] =
      [⟨1, some ("Vitamin C Premix".toList), none, none, none, none⟩])
    ∧ ∀ (comp : List CompRow) (r : CompRow), r ∈ comp →
        (r ∈ vitc comp ↔ ∃ name, r.component = some name ∧
          containsSub (name.map Char.toLower) ("vitamin".toList) = true) := by
  constructor
  · rfl
  · intro comp r hrc
    rw [vitc, List.mem_filter]
    constructor
    · rintro ⟨-, hpred⟩
      cases hcomp : r.component with
      | none =>
        rw [hcomp] at hpred
        exact Bool.noConfusion hpred
      | some name =>
        refine ⟨name, rfl, ?_⟩
        rw [hcomp] at hpred
        exact hpred
    · rintro ⟨name, hname, hsub⟩
      refine ⟨hrc, ?_⟩
      rw [hname]
      exact hsub

/-- Witness for C8: the "Vitamin C Premix" row is selected by the filter. -/
theorem C8_witness :
    (⟨1, some ("Vitamin C Premix".toList), none, none, none, none⟩ : CompRow) ∈
      vitc [⟨1, some ("Vitamin C Premix".toList), none, none, none, none⟩] :=
  (C8_vitamin_filter.2 _ _ (List.mem_singleton.mpr rfl)).mpr
    ⟨"Vitamin C Premix".toList, rfl, by decide⟩

/-- C10: a Component row whose component-name cell is missing is silently
treated as a non-match by the Vitamin-C filter: it is excluded from the
vitamin selection (no error, no match), whatever the rest of the table. -/
theorem C10_missing_component_excluded (comp : List CompRow) (r : CompRow)
    (h : r.component = none) : r ∉ vitc comp := by
  intro hmem
  rw [vitc] at hmem
  have hpred := (List.mem_filter.mp hmem).2
  rw [h] at hpred
  exact Bool.noConfusion hpred

/-- Witness for C10: a row with a missing component name is excluded. -/
theorem C10_witness :
    (⟨1, none, none, none, none, none⟩ : CompRow) ∉
      vitc [⟨1, none, none, none, none, none⟩] :=
  C10_missing_component_excluded _ _ rfl

/-! ## Claim C6: the stock-weeks pivot table -/

theorem presentVals_eq_nil_iff (xs : List (Option ℚ)) :
    presentVals xs = [] ↔ ∀ x ∈ xs, x = none := by
  induction xs with
  | nil => simp [presentVals]
  | cons a xs ih =>
    cases a with
    | none =>
      simp only [presentVals, List.mem_cons]
      rw [ih]
      constructor
      · intro h x hx
        rcases hx with hx | hx
        · rw [hx]
        · exact h x hx
      · intro h x hx
        exact h x (Or.inr hx)
    | some v =>
      simp only [presentVals]
      constructor
      · intro h
        exact absurd h (List.cons_ne_nil _ _)
      · intro h
        exact absurd (h (some v) (List.mem_cons_self _ _)) (by simp)

theorem aggMean_eq_none_iff (xs : List (Option ℚ)) :
    aggMean xs = none ↔ ∀ x ∈ xs, x = none := by
  rw [aggMean]
  cases hp : presentVals xs with
  | nil =>
    constructor
    · intro _
      exact (presentVals_eq_nil_iff _).mp hp
    · intro _
      rfl
  | cons a l =>
    constructor
    · intro h
      exact Option.noConfusion h
    · intro hall
      rw [(presentVals_eq_nil_iff _).mpr hall] at hp
      exact List.noConfusion hp

theorem pivotAgg_key_mem {comp : List CompRow} {val : CompRow → Option ℚ}
    {k : ℚ × List Char} {m : ℚ} (h : (k, m) ∈ pivotAgg comp val) :
    aggMean ((comp.filter fun row => row.round = k.1 ∧ row.component = some k.2).map val) =
      some m := by
  simp only [pivotAgg, List.mem_filterMap] at h
  obtain ⟨k0, hk0, hopt⟩ := h
  cases hagg : aggMean
      ((comp.filter fun row => row.round = k0.1 ∧ row.component = some k0.2).map val) with
  | none =>
    rw [hagg] at hopt
    exact Option.noConfusion hopt
  | some m0 =>
    rw [hagg] at hopt
    have hkm : (k0, m0) = (k, m) := Option.some.inj hopt
    have hk : k0 = k := congrArg Prod.fst hkm
    have hm : m0 = m := congrArg Prod.snd hkm
    subst hk
    subst hm
    exact hagg

theorem pivotCell_eq (comp : List CompRow) (val : CompRow → Option ℚ) (r : ℚ)
    (c : List Char) :
    pivotCell comp val r c =
      aggMean ((comp.filter fun row => row.round = r ∧ row.component = some c).map val) := by
  rw [pivotCell]
  cases hagg : aggMean
      ((comp.filter fun row => row.round = r ∧ row.component = some c).map val) with
  | none =>
    have hf : (pivotAgg comp val).find? (fun p => p.1 = (r, c)) = none := by
      rw [List.find?_eq_none]
      rintro ⟨k, m⟩ hp hpred
      simp only [decide_eq_true_eq] at hpred
      have hpred2 : k = (r, c) := hpred
      have hk1 : k.1 = r := by rw [hpred2]
      have hk2 : k.2 = c := by rw [hpred2]
      have hm := pivotAgg_key_mem hp
      rw [← hk1, ← hk2] at hagg
      rw [hagg] at hm
      exact Option.noConfusion hm
    rw [hf]
    rfl
  | some m =>
    have hex : ∃ row ∈ comp, row.round = r ∧ row.component = some c ∧ val row ≠ none := by
      by_contra hnone
      push_neg at hnone
      have hz : aggMean
          ((comp.filter fun row => row.round = r ∧ row.component = some c).map val) = none := by
        rw [aggMean_eq_none_iff]
        intro x hx
        obtain ⟨row, hrow, hxval⟩ := List.mem_map.mp hx
        obtain ⟨hrc, hcond⟩ := List.mem_filter.mp hrow
        simp only [decide_eq_true_eq] at hcond
        rw [← hxval]
        exact hnone row hrc hcond.1 hcond.2
      rw [hz] at hagg
      exact Option.noConfusion hagg
    obtain ⟨row, hrow, hr, hc, hval⟩ := hex
    have hkmem : ((r, c) : ℚ × List Char) ∈ pivotKeys comp := by
      rw [pivotKeys, List.mem_dedup, List.mem_filterMap]
      refine ⟨row, hrow, ?_⟩
      rw [hc, hr]
      rfl
    have hentry : (((r, c) : ℚ × List Char), m) ∈ pivotAgg comp val := by
      rw [pivotAgg, List.mem_filterMap]
      refine ⟨(r, c), hkmem, ?_⟩
      have hagg2 : aggMean ((comp.filter fun row =>
          row.round = ((r, c) : ℚ × List Char).1 ∧
            row.component = some ((r, c) : ℚ × List Char).2).map val) = some m := hagg
      rw [hagg2]
      rfl
    cases hf : (pivotAgg comp val).find? (fun p => p.1 = (r, c)) with
    | none =>
      rw [List.find?_eq_none] at hf
      exact absurd (decide_eq_true rfl) (hf _ hentry)
    | some p =>
      have hpred := List.find?_some hf
      simp only [decide_eq_true_eq] at hpred
      have hpmem := List.mem_of_find?_eq_some hf
      have hm2 := pivotAgg_key_mem (k := p.1) (m := p.2) hpmem
      have hk1 : p.1.1 = r := by rw [hpred]
      have hk2 : p.1.2 = c := by rw [hpred]
      rw [← hk1, ← hk2] at hagg
      rw [hagg] at hm2
      have hp2 : p.2 = m := (Option.some.inj hm2).symm
      simp only [Option.map_some']
      rw [hp2]

theorem pivotCols_iff (comp : List CompRow) (val : CompRow → Option ℚ) (c : List Char) :
    c ∈ pivotColKeys comp val ↔
      ∃ row ∈ comp, row.component = some c ∧ val row ≠ none := by
  rw [pivotColKeys, List.mem_dedup]
  constructor
  · intro h
    obtain ⟨p, hpmem, hpc⟩ := List.mem_map.mp h
    have hm := pivotAgg_key_mem (k := p.1) (m := p.2) hpmem
    have hne : ¬ ∀ x ∈ (comp.filter fun row =>
        row.round = p.1.1 ∧ row.component = some p.1.2).map val, x = none := by
      intro hall
      rw [← aggMean_eq_none_iff] at hall
      rw [hall] at hm
      exact Option.noConfusion hm
    push_neg at hne
    obtain ⟨x, hx, hxne⟩ := hne
    obtain ⟨row, hrowf, hxval⟩ := List.mem_map.mp hx
    obtain ⟨hrowc, hcond⟩ := List.mem_filter.mp hrowf
    simp only [decide_eq_true_eq] at hcond
    refine ⟨row, hrowc, ?_, ?_⟩
    · rw [hcond.2, hpc]
    · rw [hxval]
      exact hxne
  · rintro ⟨row, hrow, hcomp, hval⟩
    have hkmem : ((row.round, c) : ℚ × List Char) ∈ pivotKeys comp := by
      rw [pivotKeys, List.mem_dedup, List.mem_filterMap]
      refine ⟨row, hrow, ?_⟩
      rw [hcomp]
      rfl
    have hmean : aggMean ((comp.filter fun row2 =>
        row2.round = row.round ∧ row2.component = some c).map val) ≠ none := by
      intro hall0
      rw [aggMean_eq_none_iff] at hall0
      apply hval
      apply hall0
      apply List.mem_map.mpr
      refine ⟨row, ?_, rfl⟩
      rw [List.mem_filter]
      refine ⟨hrow, ?_⟩
      simp only [decide_eq_true_eq]
      exact ⟨trivial, hcomp⟩
    cases hagg : aggMean ((comp.filter fun row2 =>
        row2.round = row.round ∧ row2.component = some c).map val) with
    | none => exact absurd hagg hmean
    | some m =>
      apply List.mem_map.mpr
      refine ⟨((row.round, c), m), ?_, rfl⟩
      rw [pivotAgg, List.mem_filterMap]
      refine ⟨(row.round, c), hkmem, ?_⟩
      have hagg2 : aggMean ((comp.filter fun row2 =>
          row2.round = ((row.round, c) : ℚ × List Char).1 ∧
            row2.component = some ((row.round, c) : ℚ × List Char).2).map val) = some m := hagg
      rw [hagg2]
      rfl

theorem pivotRows_iff (comp : List CompRow) (val : CompRow → Option ℚ) (r : ℚ) :
    r ∈ pivotRowKeys comp val ↔
      ∃ row ∈ comp, row.round = r ∧ row.component ≠ none ∧ val row ≠ none := by
  rw [pivotRowKeys, List.mem_dedup]
  constructor
  · intro h
    obtain ⟨p, hpmem, hpr⟩ := List.mem_map.mp h
    have hm := pivotAgg_key_mem (k := p.1) (m := p.2) hpmem
    have hne : ¬ ∀ x ∈ (comp.filter fun row =>
        row.round = p.1.1 ∧ row.component = some p.1.2).map val, x = none := by
      intro hall
      rw [← aggMean_eq_none_iff] at hall
      rw [hall] at hm
      exact Option.noConfusion hm
    push_neg at hne
    obtain ⟨x, hx, hxne⟩ := hne
    obtain ⟨row, hrowf, hxval⟩ := List.mem_map.mp hx
    obtain ⟨hrowc, hcond⟩ := List.mem_filter.mp hrowf
    simp only [decide_eq_true_eq] at hcond
    refine ⟨row, hrowc, ?_, ?_, ?_⟩
    · rw [hcond.1, hpr]
    · rw [hcond.2]
      exact Option.noConfusion
    · rw [hxval]
      exact hxne
  · rintro ⟨row, hrow, hround, hcompne, hval⟩
    obtain ⟨c0, hc0⟩ : ∃ c0, row.component = some c0 := by
      cases hcc : row.component with
      | none => exact absurd hcc hcompne
      | some c0 => exact ⟨c0, rfl⟩
    have hkmem : ((r, c0) : ℚ × List Char) ∈ pivotKeys comp := by
      rw [pivotKeys, List.mem_dedup, List.mem_filterMap]
      refine ⟨row, hrow, ?_⟩
      rw [hc0, hround]
      rfl
    have hmean : aggMean ((comp.filter fun row2 =>
        row2.round = r ∧ row2.component = some c0).map val) ≠ none := by
      intro hall0
      rw [aggMean_eq_none_iff] at hall0
      apply hval
      apply hall0
      apply List.mem_map.mpr
      refine ⟨row, ?_, rfl⟩
      rw [List.mem_filter]
      refine ⟨hrow, ?_⟩
      simp only [decide_eq_true_eq]
      exact ⟨hround, hc0⟩
    cases hagg : aggMean ((comp.filter fun row2 =>
        row2.round = r ∧ row2.component = some c0).map val) with
    | none => exact absurd hagg hmean
    | some m =>
      apply List.mem_map.mpr
      refine ⟨((r, c0), m), ?_, rfl⟩
      rw [pivotAgg, List.mem_filterMap]
      refine ⟨(r, c0), hkmem, ?_⟩
      have hagg2 : aggMean ((comp.filter fun row2 =>
          row2.round = ((r, c0) : ℚ × List Char).1 ∧
            row2.component = some ((r, c0) : ℚ × List Char).2).map val) = some m := hagg
      rw [hagg2]
      rfl

/-- C6 counterexample: a Component table with rows for components "a"
(stock 5) and "b" (stock missing) has both names observed in the source,
but the pivot with the default `dropna=True` drops the all-missing "b"
group, so the column set of the stock-weeks pivot is `["a"]` and does not
equal the set of distinct component names observed. -/
theorem C6_counterexample :
    pivotColKeys [⟨1, some ("a".toList), none, some 5, none, none⟩,
        ⟨1, some ("b".toList), none, none, none, none⟩] (·.stock_weeks) = ["a".toList]
    ∧ (⟨1, some ("b".toList), none, none, none, none⟩ : CompRow) ∈
        [(⟨1, some ("a".toList), none, some 5, none, none⟩ : CompRow),
         ⟨1, some ("b".toList), none, none, none, none⟩]
    ∧ "b".toList ∉ pivotColKeys [⟨1, some ("a".toList), none, some 5, none, none⟩,
        ⟨1, some ("b".toList), none, none, none, none⟩] (·.stock_weeks) := by
  refine ⟨by decide, by decide, by decide⟩

/-- C6 (amended): in the stock-weeks pivot, the cell at
`(round = r, component = c)` equals the skipna mean of `stock_(weeks)` over
all Component rows with round `r` and component name `c` (in particular a
`(round, component)` combination with no source rows yields an absent cell,
not zero); and — because `pivot_table`'s default `dropna=True` drops
all-missing groups — the column set equals the distinct component names
having at least one non-missing stock value, and the row set equals the
distinct rounds of rows with a present component name and a non-missing
stock value, rather than all names/rounds observed. -/
theorem C6_pivot_table (comp : List CompRow) (r : ℚ) (c : List Char) :
    pivotCell comp (·.stock_weeks) r c =
      aggMean ((comp.filter fun row => row.round = r ∧ row.component = some c).map
        (·.stock_weeks))
    ∧ (c ∈ pivotColKeys comp (·.stock_weeks) ↔
        ∃ row ∈ comp, row.component = some c ∧ row.stock_weeks ≠ none)
    ∧ (r ∈ pivotRowKeys comp (·.stock_weeks) ↔
        ∃ row ∈ comp, row.round = r ∧ row.component ≠ none ∧ row.stock_weeks ≠ none) :=
  ⟨pivotCell_eq comp _ r c, pivotCols_iff comp _ c, pivotRows_iff comp _ r⟩

/-! ## Claim C7: the export writes only to the copy -/

theorem readT_writeT_self (h : Heap) (i : Nat) (t : List OverviewRow)
    (hi : i < h.tables.length) : readT (writeT h i t) i = t := by
  simp [readT, writeT, List.getElem?_set_self, hi]

theorem readT_writeT_ne (h : Heap) (i j : Nat) (t : List OverviewRow) (hij : i ≠ j) :
    readT (writeT h i t) j = readT h j := by
  simp [readT, writeT, List.getElem?_set_ne hij]

theorem readT_allocT (h : Heap) (t : List OverviewRow) (i : Nat)
    (hi : i < h.tables.length) : readT (allocT h t).1 i = readT h i := by
  simp [readT, allocT, List.getElem?_append_left hi]

theorem readT_allocT_new (h : Heap) (t : List OverviewRow) :
    readT (allocT h t).1 (allocT h t).2 = t := by
  simp [readT, allocT]

theorem foldl_writes (cs : List PctCol) :
    ∀ (h0 : Heap) (j : Nat), j < h0.tables.length →
      ((cs.foldl (fun hh c => writeT hh j ((readT hh j).map (applyPctCol c))) h0).tables.length
          = h0.tables.length)
      ∧ (∀ i, i ≠ j →
          readT (cs.foldl (fun hh c => writeT hh j ((readT hh j).map (applyPctCol c))) h0) i =
            readT h0 i)
      ∧ readT (cs.foldl (fun hh c => writeT hh j ((readT hh j).map (applyPctCol c))) h0) j =
          cs.foldl (fun t c => t.map (applyPctCol c)) (readT h0 j) := by
  induction cs with
  | nil =>
    intro h0 j hj
    exact ⟨rfl, fun i _ => rfl, rfl⟩
  | cons c cs ih =>
    intro h0 j hj
    simp only [List.foldl_cons]
    have hlen : (writeT h0 j ((readT h0 j).map (applyPctCol c))).tables.length =
        h0.tables.length := by
      simp [writeT]
    obtain ⟨ihlen, ihne, ihj⟩ :=
      ih (writeT h0 j ((readT h0 j).map (applyPctCol c))) j (by rw [hlen]; exact hj)
    refine ⟨by rw [ihlen, hlen], ?_, ?_⟩
    · intro i hij
      rw [ihne i hij, readT_writeT_ne _ _ _ _ (Ne.symm hij)]
    · rw [ihj, readT_writeT_self _ _ _ hj]

theorem pct_cols_fold_eq_tidyRow (t : List OverviewRow) :
    pct_cols.foldl (fun t c => t.map (applyPctCol c)) t = t.map tidyRow := by
  simp only [pct_cols, List.foldl_cons, List.foldl_nil, List.map_map]
  apply List.map_congr_left
  intro a _
  cases a
  rfl

/-- C7: the Data-Explorer export mutates only the freshly copied `tidy`
table: after the export transform, the canonical overview table and its
filtered slice `ov` still hold their original (fractional) values, while
the exported table holds each row of `ov` with every percentage column
rescaled by `x ↦ round2(100 * x)` (missing cells staying missing). -/
theorem C7_export_copy (h : Heap) (overviewRef ovRef : Nat)
    (h1 : overviewRef < h.tables.length) (h2 : ovRef < h.tables.length) :
    readT (dataExplorer h ovRef).1 overviewRef = readT h overviewRef
    ∧ readT (dataExplorer h ovRef).1 ovRef = readT h ovRef
    ∧ readT (dataExplorer h ovRef).1 (dataExplorer h ovRef).2 =
      (readT h ovRef).map tidyRow := by
  have hjlt : (allocT h (readT h ovRef)).2 < (allocT h (readT h ovRef)).1.tables.length := by
    simp [allocT]
  obtain ⟨flen, fne, fj⟩ :=
    foldl_writes pct_cols (allocT h (readT h ovRef)).1 (allocT h (readT h ovRef)).2 hjlt
  have hne1 : overviewRef ≠ (allocT h (readT h ovRef)).2 := by
    simp only [allocT]
    omega
  have hne2 : ovRef ≠ (allocT h (readT h ovRef)).2 := by
    simp only [allocT]
    omega
  refine ⟨?_, ?_, ?_⟩
  · show readT (pct_cols.foldl _ (allocT h (readT h ovRef)).1) overviewRef = _
    rw [fne overviewRef hne1, readT_allocT h _ overviewRef h1]
  · show readT (pct_cols.foldl _ (allocT h (readT h ovRef)).1) ovRef = _
    rw [fne ovRef hne2, readT_allocT h _ ovRef h2]
  · show readT (pct_cols.foldl _ (allocT h (readT h ovRef)).1) (allocT h (readT h ovRef)).2 = _
    rw [fj, readT_allocT_new h _, pct_cols_fold_eq_tidyRow]

/-- Witness for C7: on a heap holding a single (empty) overview table, the
export leaves the stored table unchanged and returns the transformed copy. -/
theorem C7_witness :
    readT (dataExplorer ⟨[[]]⟩ 0).1 0 = readT ⟨[[]]⟩ 0
    ∧ readT (dataExplorer ⟨[[]]⟩ 0).1 0 = readT ⟨[[]]⟩ 0
    ∧ readT (dataExplorer ⟨[[]]⟩ 0).1 (dataExplorer ⟨[[]]⟩ 0).2 =
      (readT ⟨[[]]⟩ 0).map tidyRow :=
  C7_export_copy ⟨[[]]⟩ 0 0 (by decide) (by decide)
